import Mathlib

/-!
Verification of `Cdf.py`, a small module for building and querying empirical
cumulative distribution functions (CDFs).

Modelling conventions:
* Python floats are modelled as exact rationals (`ℚ`); the literals `0.2`,
  `0.5` of the documentation are read as the exact values `1/5`, `1/2`.
* Python runtime errors are modelled by the `PyErr` type; fallible operations
  return `Except PyErr _`.
* Python list indexing (including negative indices) is modelled by `pyGet`.
* `bisect.bisect` from the Python standard library is modelled by `bisect`
  below, a faithful transcription of CPython's `bisect_right` binary search
  (fuel-based; the fuel `a.length` dominates the number of iterations).
* `sorted` from the Python standard library is modelled by `List.mergeSort`
  with the lexicographic order on pairs (Python compares tuples
  lexicographically; both sorts are stable).
* A Python dict is modelled as an association list whose keys are distinct;
  `dict.iteritems()` yields its entries in some order, which is immaterial
  here because `MakeCdf` sorts them.
-/

/-- Python runtime errors that the modelled code can raise. -/
inductive PyErr : Type
  | valueError
  | indexError
  | attributeError
  | zeroDivisionError
  | nameError
deriving DecidableEq, Repr

instance {ε α : Type} [DecidableEq ε] [DecidableEq α] : DecidableEq (Except ε α) := fun x y =>
  match x, y with
  | .ok a, .ok b =>
      if h : a = b then .isTrue (congrArg Except.ok h)
      else .isFalse fun hc => h (Except.ok.inj hc)
  | .error e, .error f =>
      if h : e = f then .isTrue (congrArg Except.error h)
      else .isFalse fun hc => h (Except.error.inj hc)
  | .ok _, .error _ => .isFalse fun hc => Except.noConfusion hc
  | .error _, .ok _ => .isFalse fun hc => Except.noConfusion hc

/-- The `Cdf` class: `__init__` (src lines 18-21) stores exactly the three
attributes `xs` (support values), `ps` (cumulative probabilities) and
`name` (graph label). -/
structure Cdf : Type where
  xs : List ℚ
  ps : List ℚ
  name : String
deriving DecidableEq, Repr

/-- Python list indexing `l[i]`: a negative index counts from the end;
an out-of-range index raises `IndexError`. -/
def pyGet (l : List ℚ) (i : ℤ) : Except PyErr ℚ :=
  let j : ℤ := if i < 0 then i + l.length else i
  if h : 0 ≤ j ∧ j < l.length then .ok (l.getD j.toNat 0) else .error .indexError

/-- The loop of CPython's `bisect_right(a, x, lo, hi)`:
`while lo < hi: mid = (lo+hi)//2; if x < a[mid]: hi = mid else: lo = mid+1`.
The fuel argument bounds the number of iterations; `hi - lo` iterations
always suffice because the bracket shrinks at every step. -/
def bisectGo (a : List ℚ) (x : ℚ) : ℕ → ℕ → ℕ → ℕ
  | 0, lo, _hi => lo
  | fuel + 1, lo, hi =>
    if lo < hi then
      if x < a.getD ((lo + hi) / 2) 0 then bisectGo a x fuel lo ((lo + hi) / 2)
      else bisectGo a x fuel ((lo + hi) / 2 + 1) hi
    else lo

/-- `bisect.bisect(a, x)`: the rightmost insertion point for `x` in `a`. -/
def bisect (a : List ℚ) (x : ℚ) : ℕ := bisectGo a x a.length 0 a.length

/-- `Cdf.Prob` (src lines 23-36): `if x < self.xs[0]: return 0.0`, else
`index = bisect.bisect(self.xs, x)` and `return self.ps[index-1]`. -/
def Cdf.Prob (c : Cdf) (x : ℚ) : Except PyErr ℚ :=
  match pyGet c.xs 0 with
  | .error e => .error e
  | .ok x0 =>
    if x < x0 then .ok 0
    else pyGet c.ps ((bisect c.xs x : ℤ) - 1)

/-- `Cdf.Value` (src lines 38-58): raises `ValueError` outside `[0,1]`;
`p == 0` and `p == 1` return the first and last support value; otherwise
`index = bisect.bisect(self.ps, p)` and the result is `self.xs[index-1]`
when `p == self.ps[index-1]`, else `self.xs[index]`. -/
def Cdf.Value (c : Cdf) (p : ℚ) : Except PyErr ℚ :=
  if p < 0 ∨ 1 < p then .error .valueError
  else if p = 0 then pyGet c.xs 0
  else if p = 1 then pyGet c.xs (-1)
  else
    match pyGet c.ps ((bisect c.ps p : ℤ) - 1) with
    | .error e => .error e
    | .ok q =>
      if p = q then pyGet c.xs ((bisect c.ps p : ℤ) - 1)
      else pyGet c.xs (bisect c.ps p : ℤ)

/-- `Cdf.Percentile` (src lines 60-69): `self.Value(p / 100.0)`. -/
def Cdf.Percentile (c : Cdf) (p : ℚ) : Except PyErr ℚ :=
  c.Value (p / 100)

/-- The loop of `Cdf.Mean` (src lines 71-83): state `(old_p, total)`, and
`for x, new_p in zip(xs, ps): total += (new_p - old_p) * x; old_p = new_p`. -/
def meanGo : ℚ → ℚ → List (ℚ × ℚ) → ℚ
  | _old, total, [] => total
  | old, total, (x, newp) :: rest => meanGo newp (total + (newp - old) * x) rest

/-- `Cdf.Mean` (src lines 71-83). -/
def Cdf.Mean (c : Cdf) : ℚ := meanGo 0 0 (c.xs.zip c.ps)

/-- The loop of `Cdf.Render` (src lines 95-115): for each index `i` into
`ps`, append `(xs[i], p)`, then try to also append `(xs[i+1], p)`, passing
on the `IndexError` at the end. The access `xs[i]` is outside the `try`
block, so it raises when `ps` is longer than `xs`. -/
def renderGo (xs : List ℚ) : ℕ → List ℚ → Except PyErr (List ℚ × List ℚ)
  | _i, [] => .ok ([], [])
  | i, p :: rest =>
    match xs[i]? with
    | none => .error .indexError
    | some xi =>
      match renderGo xs (i + 1) rest with
      | .error e => .error e
      | .ok (rx, rp) =>
        match xs[i + 1]? with
        | none => .ok (xi :: rx, p :: rp)
        | some xn => .ok (xi :: xn :: rx, p :: p :: rp)

/-- `Cdf.Render` (src lines 95-115): starts from `([xs[0]], [0.0])` and runs
the loop above. -/
def Cdf.Render (c : Cdf) : Except PyErr (List ℚ × List ℚ) :=
  match pyGet c.xs 0 with
  | .error e => .error e
  | .ok x0 =>
    match renderGo c.xs 0 c.ps with
    | .error e => .error e
    | .ok (rx, rp) => .ok (x0 :: rx, 0 :: rp)

/-- Python's ordering of `(value, count)` tuples: lexicographic. -/
def pairLE (a b : ℚ × ℚ) : Bool :=
  decide (a.1 < b.1 ∨ (a.1 = b.1 ∧ a.2 ≤ b.2))

/-- `sorted(items)` for a list of pairs: stable sort by the lexicographic
tuple order. -/
def pySorted (items : List (ℚ × ℚ)) : List (ℚ × ℚ) :=
  items.mergeSort pairLE

/-- The running sums computed by the loop of `MakeCdf`:
`runsum += count; cs.append(runsum)`, starting from accumulator `acc`. -/
def runsums (acc : ℚ) : List ℚ → List ℚ
  | [] => []
  | c :: rest => (acc + c) :: runsums (acc + c) rest

/-- `MakeCdf` (src lines 117-140): sorts the `(value, count)` pairs, builds
the running sums `cs`, sets `total` to the final running sum (the sum of all
counts), and computes `ps = [c/total for c in cs]`. Python raises
`ZeroDivisionError` on the first division `c/total` when `total == 0`,
which happens exactly when `cs` is non-empty and `total = 0`; when `cs` is
empty the comprehension performs no division at all. -/
def MakeCdf (items : List (ℚ × ℚ)) (name : String) : Except PyErr Cdf :=
  let s := pySorted items
  let xs := s.map Prod.fst
  let cs := runsums 0 (s.map Prod.snd)
  let total := (s.map Prod.snd).sum
  if cs ≠ [] ∧ total = 0 then .error .zeroDivisionError
  else .ok ⟨xs, cs.map (fun c => c / total), name⟩

/-- `MakeCdfFromDict` (src lines 143-154): `MakeCdf(d.iteritems(), name)`.
The dict is modelled as an association list with distinct keys; the
enumeration order of `iteritems()` is immaterial because `MakeCdf` sorts. -/
def MakeCdfFromDict (d : List (ℚ × ℚ)) (name : String) : Except PyErr Cdf :=
  MakeCdf d name

/-- One step of the histogram loop of `MakeCdfFromList`:
`hist[x] = hist.get(x, 0) + 1`. An existing entry is updated in place;
a new key is appended. -/
def histAdd (h : List (ℚ × ℚ)) (x : ℚ) : List (ℚ × ℚ) :=
  if h.any (fun vc => vc.1 = x) then
    h.map (fun vc => if vc.1 = x then (vc.1, vc.2 + 1) else vc)
  else h ++ [(x, 1)]

/-- The histogram built by `MakeCdfFromList` (src lines 157-171). -/
def histFromList (seq : List ℚ) : List (ℚ × ℚ) :=
  seq.foldl histAdd []

/-- `MakeCdfFromList` (src lines 157-171): tally the samples into a
histogram, then delegate to `MakeCdfFromDict`. -/
def MakeCdfFromList (seq : List ℚ) (name : String) : Except PyErr Cdf :=
  MakeCdfFromDict (histFromList seq) name

/-- Reading the `data` attribute of a `Cdf` object. `Cdf.__init__`
(src lines 18-21) sets only `xs`, `ps` and `name`; no method of the class
ever assigns `data`, so every access `cdf.data` raises `AttributeError`. -/
def Cdf.dataAttr (_c : Cdf) : Except PyErr (List (ℚ × ℚ)) :=
  .error .attributeError

/-- The inner loop of `ProbLess` (src lines 199-204):
`while x <= x2: x, y = cdf2.data[j]; if j == len(cdf2.data)-1: break
else: j += 1`. The state is `(x, y, j)`; `x` starts as `float('-Inf')`
(modelled by `⊥ : WithBot ℚ`) and `y` starts unbound (modelled by
`none : Option ℚ`). -/
def plInner (d2 : List (ℚ × ℚ)) (x2 : ℚ) (x : WithBot ℚ) (y : Option ℚ) (j : ℕ) :
    Except PyErr (WithBot ℚ × Option ℚ × ℕ) :=
  if x ≤ (x2 : WithBot ℚ) then
    match h : d2[j]? with
    | none => .error .indexError
    | some xy =>
      if j = d2.length - 1 then .ok ((xy.1 : WithBot ℚ), some xy.2, j)
      else plInner d2 x2 (xy.1 : WithBot ℚ) (some xy.2) (j + 1)
  else .ok (x, y, j)
termination_by d2.length - j
decreasing_by
  have hj : j < d2.length := by
    have := List.getElem?_eq_some_iff.mp h
    exact this.1
  omega

/-- The outer loop of `ProbLess` (src lines 192-210): reads
`cdf1.data[i]` and `cdf1.data[i+1]`, runs the inner loop, adds
`p * (1 - y)` to the total (a `NameError` if `y` was never assigned), and
stops once `i` reaches `len(cdf1.data) - 1`. -/
def plOuter (d1 d2 : List (ℚ × ℚ)) (total : ℚ) (x : WithBot ℚ) (y : Option ℚ)
    (i j : ℕ) : Except PyErr ℚ :=
  match d1[i]? with
  | none => .error .indexError
  | some vp1 =>
    match h2 : d1[i + 1]? with
    | none => .error .indexError
    | some vp2 =>
      let p := vp2.2 - vp1.2
      match plInner d2 vp2.1 x y j with
      | .error e => .error e
      | .ok st =>
        match st.2.1 with
        | none => .error .nameError
        | some yv =>
          let total' := total + p * (1 - yv)
          if i + 1 = d1.length - 1 then .ok total'
          else plOuter d1 d2 total' st.1 (some yv) (i + 1) st.2.2
termination_by d1.length - i
decreasing_by
  have hi : i + 1 < d1.length := by
    have := List.getElem?_eq_some_iff.mp h2
    exact this.1
  omega

/-- `ProbLess` (src lines 173-212). The first statements executed inside the
loop read `cdf1.data` and `cdf2.data`; attribute lookup on a `Cdf` object is
stable, so hoisting the two lookups in front of the loop preserves
behaviour. -/
def ProbLess (cdf1 cdf2 : Cdf) : Except PyErr ℚ :=
  match cdf1.dataAttr with
  | .error e => .error e
  | .ok d1 =>
    match cdf2.dataAttr with
    | .error e => .error e
    | .ok d2 => plOuter d1 d2 0 ⊥ none 0 0

/-- The invariants of a builder-produced CDF, as the specification states
them: values strictly ascending, cumulative probabilities non-decreasing
and all in `[0,1]`, equal lengths, final cumulative probability `1`. -/
def builderInv (c : Cdf) : Prop :=
  c.xs.Sorted (· < ·) ∧ c.ps.Sorted (· ≤ ·) ∧ (∀ y ∈ c.ps, 0 ≤ y ∧ y ≤ 1) ∧
    c.xs.length = c.ps.length ∧ c.ps.getLast? = some 1

lemma getD_lt_of_sorted_lt {a : List ℚ} (hs : a.Sorted (· < ·)) {i j : ℕ}
    (hij : i < j) (hj : j < a.length) : a.getD i 0 < a.getD j 0 := by
  have hi : i < a.length := lt_trans hij hj
  rw [List.getD_eq_getElem a 0 hi, List.getD_eq_getElem a 0 hj]
  have := List.pairwise_iff_get.mp hs ⟨i, hi⟩ ⟨j, hj⟩ hij
  simpa using this

lemma getD_le_of_sorted_le {a : List ℚ} (hs : a.Sorted (· ≤ ·)) {i j : ℕ}
    (hij : i ≤ j) (hj : j < a.length) : a.getD i 0 ≤ a.getD j 0 := by
  rcases Nat.lt_or_ge i j with h | h
  · have hi : i < a.length := lt_trans h hj
    rw [List.getD_eq_getElem a 0 hi, List.getD_eq_getElem a 0 hj]
    have := List.pairwise_iff_get.mp hs ⟨i, hi⟩ ⟨j, hj⟩ h
    simpa using this
  · have : i = j := le_antisymm hij h
    rw [this]

lemma bisectGo_spec {a : List ℚ} {x : ℚ} (hs : a.Sorted (· ≤ ·)) :
    ∀ fuel lo hi, hi - lo ≤ fuel → lo ≤ hi → hi ≤ a.length →
      (∀ k, k < lo → k < a.length → a.getD k 0 ≤ x) →
      (∀ k, hi ≤ k → k < a.length → x < a.getD k 0) →
      bisectGo a x fuel lo hi ≤ a.length ∧
        (∀ k, k < bisectGo a x fuel lo hi → k < a.length → a.getD k 0 ≤ x) ∧
        (∀ k, bisectGo a x fuel lo hi ≤ k → k < a.length → x < a.getD k 0) := by
  intro fuel
  induction fuel with
  | zero =>
    intro lo hi hf hlh hha hlo hhi
    have heq : lo = hi := by omega
    subst heq
    simp only [bisectGo]
    exact ⟨le_trans hlh hha, hlo, fun k hk hklen => hhi k hk hklen⟩
  | succ n ih =>
    intro lo hi hf hlh hha hlo hhi
    simp only [bisectGo]
    by_cases hcase : lo < hi
    · rw [if_pos hcase]
      by_cases hx : x < a.getD ((lo + hi) / 2) 0
      · rw [if_pos hx]
        refine ih lo ((lo + hi) / 2) (by omega) (by omega)
          (le_trans (by omega) hha) hlo ?_
        intro k hk hklen
        exact lt_of_lt_of_le hx (getD_le_of_sorted_le hs hk hklen)
      · rw [if_neg hx]
        push_neg at hx
        refine ih ((lo + hi) / 2 + 1) hi (by omega) (by omega) hha ?_ hhi
        intro k hk hklen
        have hm : (lo + hi) / 2 < a.length := by omega
        exact le_trans (getD_le_of_sorted_le hs (by omega) hm) hx
    · rw [if_neg hcase]
      have heq : lo = hi := by omega
      subst heq
      exact ⟨le_trans hlh hha, hlo, fun k hk hklen => hhi k hk hklen⟩

lemma bisect_spec {a : List ℚ} {x : ℚ} (hs : a.Sorted (· ≤ ·)) :
    bisect a x ≤ a.length ∧
      (∀ k, k < bisect a x → k < a.length → a.getD k 0 ≤ x) ∧
      (∀ k, bisect a x ≤ k → k < a.length → x < a.getD k 0) :=
  bisectGo_spec hs a.length 0 a.length (by omega) (by omega) le_rfl
    (fun k hk _ => absurd hk (Nat.not_lt_zero k))
    (fun k hk hklen => absurd hklen (by omega))

lemma countP_eq_of_getD {p : ℚ → Bool} :
    ∀ (a : List ℚ) (r : ℕ), r ≤ a.length →
      (∀ k, k < r → p (a.getD k 0) = true) →
      (∀ k, r ≤ k → k < a.length → p (a.getD k 0) = false) →
      a.countP p = r := by
  intro a
  induction a with
  | nil =>
    intro r hr _ _
    have : r = 0 := by simpa using hr
    simp [this]
  | cons hd tl ih =>
    intro r hr h1 h2
    cases r with
    | zero =>
      have hhd : p hd = false := by
        have := h2 0 (Nat.zero_le 0) (by simp)
        simpa using this
      rw [List.countP_cons]
      have htl : tl.countP p = 0 := by
        refine ih 0 (Nat.zero_le _) (fun k hk => absurd hk (Nat.not_lt_zero k)) ?_
        intro k _ hklen
        have := h2 (k + 1) (Nat.zero_le _) (by simpa using hklen)
        simpa using this
      simp [htl, hhd]
    | succ s =>
      have hhd : p hd = true := by simpa using h1 0 (Nat.succ_pos s)
      rw [List.countP_cons]
      have htl : tl.countP p = s := by
        refine ih s (by simpa using hr) ?_ ?_
        · intro k hk
          have := h1 (k + 1) (by omega)
          simpa using this
        · intro k hk hklen
          have := h2 (k + 1) (by omega) (by simpa using hklen)
          simpa using this
      simp [htl, hhd]

lemma bisect_eq_countP {a : List ℚ} {x : ℚ} (hs : a.Sorted (· ≤ ·)) :
    bisect a x = a.countP (fun y => decide (y ≤ x)) := by
  obtain ⟨hle, h1, h2⟩ := bisect_spec (x := x) hs
  symm
  refine countP_eq_of_getD a (bisect a x) hle ?_ ?_
  · intro k hk
    exact decide_eq_true (h1 k hk (lt_of_lt_of_le hk hle))
  · intro k hk hklen
    exact decide_eq_false (not_le.mpr (h2 k hk hklen))

lemma runsums_length (acc : ℚ) (l : List ℚ) : (runsums acc l).length = l.length := by
  induction l generalizing acc with
  | nil => rfl
  | cons c rest ih => simp [runsums, ih]

lemma mem_runsums_gt : ∀ (l : List ℚ), (∀ c ∈ l, 0 < c) →
    ∀ acc, ∀ y ∈ runsums acc l, acc < y := by
  intro l
  induction l with
  | nil => intro _ acc y hy; simp [runsums] at hy
  | cons c rest ih =>
    intro hpos acc y hy
    have hc : 0 < c := hpos c (by simp)
    rcases (by simpa [runsums] using hy : y = acc + c ∨ y ∈ runsums (acc + c) rest) with h | h
    · linarith [h]
    · have := ih (fun d hd => hpos d (by simp [hd])) (acc + c) y h
      linarith

lemma sum_nonneg_of_pos {l : List ℚ} (hpos : ∀ c ∈ l, 0 < c) : 0 ≤ l.sum := by
  induction l with
  | nil => simp
  | cons c rest ih =>
    have hc : 0 < c := hpos c (by simp)
    have := ih (fun d hd => hpos d (by simp [hd]))
    simp only [List.sum_cons]
    linarith

lemma mem_runsums_le_sum : ∀ (l : List ℚ), (∀ c ∈ l, 0 < c) →
    ∀ acc, ∀ y ∈ runsums acc l, y ≤ acc + l.sum := by
  intro l
  induction l with
  | nil => intro _ acc y hy; simp [runsums] at hy
  | cons c rest ih =>
    intro hpos acc y hy
    have hrest : ∀ d ∈ rest, 0 < d := fun d hd => hpos d (by simp [hd])
    have hsum : 0 ≤ rest.sum := sum_nonneg_of_pos hrest
    rcases (by simpa [runsums] using hy : y = acc + c ∨ y ∈ runsums (acc + c) rest) with h | h
    · simp only [List.sum_cons]
      linarith [h]
    · have := ih hrest (acc + c) y h
      simp only [List.sum_cons]
      linarith

lemma runsums_sorted_lt : ∀ (l : List ℚ), (∀ c ∈ l, 0 < c) →
    ∀ acc, (runsums acc l).Sorted (· < ·) := by
  intro l
  induction l with
  | nil => intro _ acc; simp [runsums]
  | cons c rest ih =>
    intro hpos acc
    have hrest : ∀ d ∈ rest, 0 < d := fun d hd => hpos d (by simp [hd])
    simp only [runsums, List.sorted_cons]
    exact ⟨fun y hy => mem_runsums_gt rest hrest (acc + c) y hy, ih hrest (acc + c)⟩

lemma runsums_getLast? : ∀ (l : List ℚ), l ≠ [] → ∀ acc,
    (runsums acc l).getLast? = some (acc + l.sum) := by
  intro l
  induction l with
  | nil => intro h; exact absurd rfl h
  | cons c rest ih =>
    intro _ acc
    cases hrest : rest with
    | nil => simp [runsums, hrest]
    | cons d rest' =>
      have hne : rest ≠ [] := by simp [hrest]
      have := ih hne (acc + c)
      rw [hrest] at this
      simp only [runsums] at this
      simp only [runsums, List.sum_cons, List.getLast?_cons_cons]
      rw [this]
      congr 1
      simp only [List.sum_cons]
      ring

lemma pairLE_trans : ∀ a b c : ℚ × ℚ, pairLE a b = true → pairLE b c = true →
    pairLE a c = true := by
  intro a b c hab hbc
  simp only [pairLE, decide_eq_true_eq] at hab hbc ⊢
  rcases hab with h1 | ⟨h1, h1'⟩ <;> rcases hbc with h2 | ⟨h2, h2'⟩
  · exact Or.inl (lt_trans h1 h2)
  · exact Or.inl (lt_of_lt_of_eq h1 h2)
  · exact Or.inl (lt_of_eq_of_lt h1 h2)
  · exact Or.inr ⟨h1.trans h2, le_trans h1' h2'⟩

lemma pairLE_total : ∀ a b : ℚ × ℚ, (pairLE a b || pairLE b a) = true := by
  intro a b
  simp only [pairLE, Bool.or_eq_true, decide_eq_true_eq]
  rcases lt_trichotomy a.1 b.1 with h | h | h
  · exact Or.inl (Or.inl h)
  · rcases le_total a.2 b.2 with h' | h'
    · exact Or.inl (Or.inr ⟨h, h'⟩)
    · exact Or.inr (Or.inr ⟨h.symm, h'⟩)
  · exact Or.inr (Or.inl h)

lemma pySorted_perm (items : List (ℚ × ℚ)) : (pySorted items).Perm items :=
  List.mergeSort_perm items pairLE

lemma pySorted_sorted_fst (items : List (ℚ × ℚ)) :
    ((pySorted items).map Prod.fst).Sorted (· ≤ ·) := by
  have h := List.sorted_mergeSort pairLE_trans pairLE_total items
  rw [List.Sorted, List.pairwise_map]
  refine h.imp ?_
  intro a b hab
  simp only [pairLE, decide_eq_true_eq] at hab
  rcases hab with h' | ⟨h', _⟩
  · exact le_of_lt h'
  · exact le_of_eq h'

lemma pySorted_ne_nil {items : List (ℚ × ℚ)} (hne : items ≠ []) : pySorted items ≠ [] := by
  intro h
  exact hne ((h ▸ pySorted_perm items).symm.eq_nil)

lemma totalPos {items : List (ℚ × ℚ)} (hne : items ≠ []) (hpos : ∀ vc ∈ items, 0 < vc.2) :
    0 < ((pySorted items).map Prod.snd).sum := by
  apply List.sum_pos
  · intro x hx
    obtain ⟨vc, hvc, rfl⟩ := List.mem_map.mp hx
    exact hpos vc ((pySorted_perm items).mem_iff.mp hvc)
  · intro h
    exact pySorted_ne_nil hne (by simpa using h)

lemma MakeCdf_eq {items : List (ℚ × ℚ)} (hne : items ≠ []) (hpos : ∀ vc ∈ items, 0 < vc.2)
    (name : String) :
    MakeCdf items name = .ok ⟨(pySorted items).map Prod.fst,
      (runsums 0 ((pySorted items).map Prod.snd)).map
        (fun c => c / ((pySorted items).map Prod.snd).sum), name⟩ := by
  have htot := totalPos hne hpos
  simp only [MakeCdf]
  rw [if_neg]
  intro h
  exact absurd h.2 (ne_of_gt htot)

lemma MakeCdf_inv {items : List (ℚ × ℚ)} {name : String} {c : Cdf}
    (hne : items ≠ []) (hpos : ∀ vc ∈ items, 0 < vc.2)
    (hnd : (items.map Prod.fst).Nodup)
    (hok : MakeCdf items name = .ok c) :
    builderInv c ∧ c.ps.Sorted (· < ·) ∧ c.xs ≠ [] ∧ c.name = name := by
  have htot := totalPos hne hpos
  have heq := MakeCdf_eq hne hpos name
  rw [hok] at heq
  obtain rfl := Except.ok.inj heq
  have hsnn : pySorted items ≠ [] := pySorted_ne_nil hne
  have hcnn : (pySorted items).map Prod.snd ≠ [] := by
    intro h
    exact hsnn (by simpa using h)
  have posn : ∀ d ∈ (pySorted items).map Prod.snd, 0 < d := by
    intro d hd
    obtain ⟨vc, hvc, rfl⟩ := List.mem_map.mp hd
    exact hpos vc ((pySorted_perm items).mem_iff.mp hvc)
  have hxs_sorted : ((pySorted items).map Prod.fst).Sorted (· < ·) := by
    have h1 := pySorted_sorted_fst items
    have h2 : ((pySorted items).map Prod.fst).Nodup :=
      ((pySorted_perm items).map Prod.fst).nodup_iff.mpr hnd
    exact (List.Pairwise.and h1 h2).imp fun h => lt_of_le_of_ne h.1 h.2
  have hcs_sorted : (runsums 0 ((pySorted items).map Prod.snd)).Sorted (· < ·) :=
    runsums_sorted_lt _ posn 0
  have hps_sorted :
      ((runsums 0 ((pySorted items).map Prod.snd)).map
        (fun c => c / ((pySorted items).map Prod.snd).sum)).Sorted (· < ·) := by
    rw [List.Sorted, List.pairwise_map]
    exact hcs_sorted.imp fun h => (div_lt_div_iff_of_pos_right htot).mpr h
  have hbounds : ∀ y ∈ (runsums 0 ((pySorted items).map Prod.snd)).map
      (fun c => c / ((pySorted items).map Prod.snd).sum), 0 ≤ y ∧ y ≤ 1 := by
    intro y hy
    obtain ⟨cc, hcc, rfl⟩ := List.mem_map.mp hy
    have h1 : 0 < cc := by simpa using mem_runsums_gt _ posn 0 cc hcc
    have h2 : cc ≤ ((pySorted items).map Prod.snd).sum := by
      simpa using mem_runsums_le_sum _ posn 0 cc hcc
    exact ⟨div_nonneg (le_of_lt h1) (le_of_lt htot), (div_le_one htot).mpr h2⟩
  have hlast : ((runsums 0 ((pySorted items).map Prod.snd)).map
      (fun c => c / ((pySorted items).map Prod.snd).sum)).getLast? = some 1 := by
    rw [List.getLast?_map, runsums_getLast? _ hcnn 0]
    simp only [Option.map_some', zero_add]
    rw [div_self (ne_of_gt htot)]
  refine ⟨⟨hxs_sorted, hps_sorted.imp le_of_lt, hbounds, ?_, hlast⟩, hps_sorted, ?_, rfl⟩
  · simp [runsums_length]
  · intro h
    exact hsnn (by simpa using h)

lemma pyGet_ofNat {l : List ℚ} {k : ℕ} (hk : k < l.length) :
    pyGet l (k : ℤ) = .ok (l.getD k 0) := by
  have hj : (if (k : ℤ) < 0 then (k : ℤ) + l.length else (k : ℤ)) = (k : ℤ) := by
    rw [if_neg (by omega)]
  simp only [pyGet, hj]
  rw [dif_pos ⟨by omega, by omega⟩]
  have ht : ((k : ℤ)).toNat = k := by omega
  rw [ht]

lemma pyGet_zero {l : List ℚ} (h : l ≠ []) : pyGet l 0 = .ok (l.getD 0 0) := by
  have := pyGet_ofNat (l := l) (k := 0) (List.length_pos.mpr h)
  simpa using this

lemma pyGet_neg_one {l : List ℚ} (h : l ≠ []) :
    pyGet l (-1) = .ok (l.getD (l.length - 1) 0) := by
  have hlen : 0 < l.length := List.length_pos.mpr h
  have hj : (if (-1 : ℤ) < 0 then (-1 : ℤ) + l.length else (-1 : ℤ)) = (l.length : ℤ) - 1 := by
    rw [if_pos (by omega)]
    ring
  simp only [pyGet, hj]
  rw [dif_pos ⟨by omega, by omega⟩]
  have ht : ((l.length : ℤ) - 1).toNat = l.length - 1 := by omega
  rw [ht]

lemma getLast?_eq_getD {l : List ℚ} (h : l ≠ []) :
    l.getLast? = some (l.getD (l.length - 1) 0) := by
  have hlen : 0 < l.length := List.length_pos.mpr h
  rw [List.getLast?_eq_getElem?, List.getElem?_eq_getElem (by omega),
    List.getD_eq_getElem l 0 (by omega)]

lemma Prob_lt_head {c : Cdf} (hne : c.xs ≠ []) {x : ℚ} (hx : x < c.xs.getD 0 0) :
    c.Prob x = .ok 0 := by
  simp only [Cdf.Prob, pyGet_zero hne]
  rw [if_pos hx]

lemma Prob_eval {c : Cdf} (hxs : c.xs.Sorted (· ≤ ·)) (hne : c.xs ≠ [])
    (hlen : c.xs.length = c.ps.length) {x : ℚ} (hx : c.xs.getD 0 0 ≤ x) :
    c.Prob x = .ok (c.ps.getD (bisect c.xs x - 1) 0) ∧
      1 ≤ bisect c.xs x ∧ bisect c.xs x ≤ c.xs.length := by
  have hlpos : 0 < c.xs.length := List.length_pos.mpr hne
  obtain ⟨hble, _hA, hB⟩ := bisect_spec (a := c.xs) (x := x) hxs
  have h1 : 1 ≤ bisect c.xs x := by
    by_contra h
    have h0 : bisect c.xs x ≤ 0 := by omega
    exact absurd hx (not_le.mpr (hB 0 h0 hlpos))
  have hcast : ((bisect c.xs x : ℤ) - 1) = ((bisect c.xs x - 1 : ℕ) : ℤ) := by omega
  have hidx : bisect c.xs x - 1 < c.ps.length := by omega
  simp only [Cdf.Prob, pyGet_zero hne]
  rw [if_neg (not_lt.mpr hx), hcast, pyGet_ofNat hidx]
  exact ⟨rfl, h1, hble⟩

lemma bisect_at_support {c : Cdf} (hxs : c.xs.Sorted (· < ·)) {k : ℕ}
    (hk : k < c.xs.length) : bisect c.xs (c.xs.getD k 0) = k + 1 := by
  have hle : c.xs.Sorted (· ≤ ·) := hxs.imp le_of_lt
  obtain ⟨hble, hA, hB⟩ := bisect_spec (a := c.xs) (x := c.xs.getD k 0) hle
  by_contra hne
  rcases Nat.lt_or_ge (bisect c.xs (c.xs.getD k 0)) (k + 1) with h | h
  · have : c.xs.getD k 0 < c.xs.getD k 0 := hB k (by omega) hk
    exact lt_irrefl _ this
  · have hk1 : k + 1 < bisect c.xs (c.xs.getD k 0) := by omega
    have hk1len : k + 1 < c.xs.length := by omega
    have h1 : c.xs.getD (k + 1) 0 ≤ c.xs.getD k 0 := hA (k + 1) hk1 hk1len
    have h2 : c.xs.getD k 0 < c.xs.getD (k + 1) 0 :=
      getD_lt_of_sorted_lt hxs (Nat.lt_succ_self k) hk1len
    exact absurd h1 (not_le.mpr h2)

lemma Prob_at_support {c : Cdf} (hxs : c.xs.Sorted (· < ·))
    (hlen : c.xs.length = c.ps.length) {k : ℕ} (hk : k < c.xs.length) :
    c.Prob (c.xs.getD k 0) = .ok (c.ps.getD k 0) := by
  have hle : c.xs.Sorted (· ≤ ·) := hxs.imp le_of_lt
  have hne : c.xs ≠ [] := List.length_pos.mp (by omega) |> fun h => h
  have hx : c.xs.getD 0 0 ≤ c.xs.getD k 0 := getD_le_of_sorted_le hle (Nat.zero_le k) hk
  obtain ⟨hp, _, _⟩ := Prob_eval hle hne hlen hx
  rw [hp, bisect_at_support hxs hk]
  simp

lemma Value_out_of_range {c : Cdf} {p : ℚ} (h : p < 0 ∨ 1 < p) :
    c.Value p = .error .valueError := by
  rw [Cdf.Value, if_pos h]

lemma Value_zero {c : Cdf} (hne : c.xs ≠ []) : c.Value 0 = .ok (c.xs.getD 0 0) := by
  rw [Cdf.Value, if_neg (by norm_num), if_pos rfl, pyGet_zero hne]

lemma Value_one {c : Cdf} (hne : c.xs ≠ []) :
    c.Value 1 = .ok (c.xs.getD (c.xs.length - 1) 0) := by
  rw [Cdf.Value, if_neg (by norm_num), if_neg (by norm_num), if_pos rfl, pyGet_neg_one hne]

lemma Value_mid {c : Cdf} (hlen : c.xs.length = c.ps.length) (hne : c.xs ≠ [])
    (hps : c.ps.Sorted (· < ·)) (hlast : c.ps.getLast? = some 1)
    {p : ℚ} (h0 : 0 < p) (h1 : p < 1) :
    ∃ k, k < c.xs.length ∧ c.Value p = .ok (c.xs.getD k 0) ∧
      p ≤ c.ps.getD k 0 ∧ ∀ j, j < k → c.ps.getD j 0 < p := by
  have hxlen : 0 < c.xs.length := List.length_pos.mpr hne
  have hplen : 0 < c.ps.length := by omega
  have hpsne : c.ps ≠ [] := List.length_pos.mp hplen
  have hlastD : c.ps.getD (c.ps.length - 1) 0 = 1 := by
    have := getLast?_eq_getD hpsne
    rw [hlast] at this
    exact (Option.some.inj this).symm
  have hple : c.ps.Sorted (· ≤ ·) := hps.imp le_of_lt
  obtain ⟨hble, hA, hB⟩ := bisect_spec (a := c.ps) (x := p) hple
  have hidxlt : bisect c.ps p < c.ps.length := by
    rcases Nat.lt_or_ge (bisect c.ps p) (c.ps.length) with h | h
    · exact h
    · have heq : bisect c.ps p = c.ps.length := le_antisymm hble h
      have := hA (c.ps.length - 1) (by omega) (by omega)
      rw [hlastD] at this
      exact absurd this (not_le.mpr h1)
  have hc1 : ¬(p < 0 ∨ 1 < p) := by
    push_neg
    exact ⟨le_of_lt h0, le_of_lt h1⟩
  have hc2 : ¬(p = 0) := ne_of_gt h0
  have hc3 : ¬(p = 1) := ne_of_lt h1
  rw [Cdf.Value, if_neg hc1, if_neg hc2, if_neg hc3]
  cases hidx : bisect c.ps p with
  | zero =>
    simp only [Nat.cast_zero]
    have hq : pyGet c.ps ((0 : ℤ) - 1) = .ok (c.ps.getD (c.ps.length - 1) 0) := by
      have hm1 : ((0 : ℤ) - 1) = (-1 : ℤ) := by omega
      rw [hm1, pyGet_neg_one hpsne]
    simp only [hq]
    have hqne : ¬(p = c.ps.getD (c.ps.length - 1) 0) := by
      rw [hlastD]
      exact hc3
    rw [if_neg hqne]
    refine ⟨0, hxlen, ?_, ?_, ?_⟩
    · exact pyGet_zero hne
    · exact le_of_lt (hB 0 (by omega) hplen)
    · intro j hj
      exact absurd hj (Nat.not_lt_zero j)
  | succ m =>
    have hmlt : m < c.ps.length := by omega
    have hq : pyGet c.ps ((m + 1 : ℕ) - 1 : ℤ) = .ok (c.ps.getD m 0) := by
      have : ((m + 1 : ℕ) - 1 : ℤ) = ((m : ℕ) : ℤ) := by push_cast; ring
      rw [this, pyGet_ofNat hmlt]
    simp only [hq]
    have hqle : c.ps.getD m 0 ≤ p := by
      have := hA m (by omega) hmlt
      exact this
  -- wait hA expects k < bisect: rewritten by hidx? hA : ∀ k < bisect c.ps p ...
    by_cases hpq : p = c.ps.getD m 0
    · rw [if_pos hpq]
      have hmx : m < c.xs.length := by omega
      have : pyGet c.xs ((m + 1 : ℕ) - 1 : ℤ) = .ok (c.xs.getD m 0) := by
        have hc : ((m + 1 : ℕ) - 1 : ℤ) = ((m : ℕ) : ℤ) := by push_cast; ring
        rw [hc, pyGet_ofNat hmx]
      rw [this]
      refine ⟨m, hmx, rfl, le_of_eq hpq, ?_⟩
      intro j hj
      have := getD_lt_of_sorted_lt hps hj hmlt
      rw [← hpq] at this
      exact this
    · rw [if_neg hpq]
      have hm1x : m + 1 < c.xs.length := by omega
      have : pyGet c.xs ((m + 1 : ℕ) : ℤ) = .ok (c.xs.getD (m + 1) 0) := pyGet_ofNat hm1x
      rw [this]
      refine ⟨m + 1, hm1x, rfl, ?_, ?_⟩
      · have := hB (m + 1) (by omega) (by omega)
        exact le_of_lt this
      · intro j hj
        rcases Nat.lt_or_ge j m with h | h
        · have := getD_lt_of_sorted_lt hps h hmlt
          exact lt_of_lt_of_le this hqle
        · have hjm : j = m := by omega
          rw [hjm]
          exact lt_of_le_of_ne hqle (fun he => hpq he.symm)

lemma histAdd_ne_nil (h : List (ℚ × ℚ)) (x : ℚ) : histAdd h x ≠ [] := by
  by_cases hc : h.any (fun vc => vc.1 = x)
  · rw [histAdd, if_pos hc]
    intro hmap
    rw [List.map_eq_nil_iff] at hmap
    subst hmap
    simp at hc
  · rw [histAdd, if_neg hc]
    simp

lemma histAdd_nodup {h : List (ℚ × ℚ)} (hnd : (h.map Prod.fst).Nodup) (x : ℚ) :
    ((histAdd h x).map Prod.fst).Nodup := by
  by_cases hc : h.any (fun vc => vc.1 = x)
  · rw [histAdd, if_pos hc]
    have hmm : (h.map (fun vc => if vc.1 = x then (vc.1, vc.2 + 1) else vc)).map Prod.fst
        = h.map Prod.fst := by
      rw [List.map_map]
      apply List.map_congr_left
      intro vc _
      by_cases hvx : vc.1 = x
      · simp [hvx]
      · simp [hvx]
    rw [hmm]
    exact hnd
  · rw [histAdd, if_neg hc]
    rw [List.map_append, List.nodup_append]
    refine ⟨hnd, by simp, ?_⟩
    intro a ha hax
    have hax' : a = x := by simpa using hax
    obtain ⟨vc, hvc, rfl⟩ := List.mem_map.mp ha
    simp only [List.any_eq_true, decide_eq_true_eq] at hc
    exact hc ⟨vc, hvc, hax'⟩

lemma histAdd_pos {h : List (ℚ × ℚ)} (hpos : ∀ vc ∈ h, 0 < vc.2) (x : ℚ) :
    ∀ vc ∈ histAdd h x, 0 < vc.2 := by
  intro vc hvc
  by_cases hc : h.any (fun wc => wc.1 = x)
  · rw [histAdd, if_pos hc] at hvc
    obtain ⟨wc, hwc, rfl⟩ := List.mem_map.mp hvc
    by_cases hwx : wc.1 = x
    · rw [if_pos hwx]
      dsimp only
      linarith [hpos wc hwc]
    · rw [if_neg hwx]
      exact hpos wc hwc
  · rw [histAdd, if_neg hc] at hvc
    rcases List.mem_append.mp hvc with h' | h'
    · exact hpos vc h'
    · have : vc = (x, 1) := by simpa using h'
      rw [this]
      norm_num

lemma update_sums : ∀ (h : List (ℚ × ℚ)) (x : ℚ), (h.map Prod.fst).Nodup →
    h.any (fun vc => vc.1 = x) = true →
    ((h.map (fun vc => if vc.1 = x then (vc.1, vc.2 + 1) else vc)).map
        (fun vc => vc.1 * vc.2)).sum = (h.map (fun vc => vc.1 * vc.2)).sum + x ∧
      ((h.map (fun vc => if vc.1 = x then (vc.1, vc.2 + 1) else vc)).map Prod.snd).sum
        = (h.map Prod.snd).sum + 1 := by
  intro h
  induction h with
  | nil =>
    intro x _ hany
    simp at hany
  | cons vc t ih =>
    intro x hnd hany
    have hnd' : (t.map Prod.fst).Nodup := by
      rw [List.map_cons, List.nodup_cons] at hnd
      exact hnd.2
    by_cases hvx : vc.1 = x
    · have hnotmem : vc.1 ∉ t.map Prod.fst := by
        rw [List.map_cons, List.nodup_cons] at hnd
        exact hnd.1
      have hxt : ∀ wc ∈ t, ¬(wc.1 = x) := by
        intro wc hwc he
        exact hnotmem (hvx ▸ he ▸ List.mem_map_of_mem Prod.fst hwc)
      have htmap : t.map (fun wc => if wc.1 = x then (wc.1, wc.2 + 1) else wc) = t := by
        have := List.map_congr_left (l := t)
          (f := fun wc => if wc.1 = x then (wc.1, wc.2 + 1) else wc) (g := id)
          (fun wc hwc => if_neg (hxt wc hwc))
        rw [this, List.map_id]
      simp only [List.map_cons, if_pos hvx, htmap, List.sum_cons]
      constructor
      · rw [← hvx]
        ring
      · ring
    · simp only [List.map_cons, if_neg hvx, List.sum_cons]
      have hany' : t.any (fun wc => wc.1 = x) = true := by
        simp only [List.any_cons, Bool.or_eq_true, decide_eq_true_eq] at hany
        rcases hany with h' | h'
        · exact absurd h' hvx
        · exact h'
      obtain ⟨h1, h2⟩ := ih x hnd' hany'
      rw [h1, h2]
      constructor <;> ring

lemma histAdd_sums {h : List (ℚ × ℚ)} (hnd : (h.map Prod.fst).Nodup) (x : ℚ) :
    ((histAdd h x).map (fun vc => vc.1 * vc.2)).sum
        = (h.map (fun vc => vc.1 * vc.2)).sum + x ∧
      ((histAdd h x).map Prod.snd).sum = (h.map Prod.snd).sum + 1 := by
  by_cases hc : h.any (fun vc => vc.1 = x)
  · rw [histAdd, if_pos hc]
    exact update_sums h x hnd hc
  · rw [histAdd, if_neg hc]
    constructor
    · simp [List.sum_append]
    · simp [List.sum_append]

lemma histFold_spec : ∀ (seq : List ℚ) (h : List (ℚ × ℚ)),
    (h.map Prod.fst).Nodup → (∀ vc ∈ h, 0 < vc.2) →
    ((seq.foldl histAdd h).map Prod.fst).Nodup ∧
      (∀ vc ∈ seq.foldl histAdd h, 0 < vc.2) ∧
      ((seq.foldl histAdd h).map (fun vc => vc.1 * vc.2)).sum
        = (h.map (fun vc => vc.1 * vc.2)).sum + seq.sum ∧
      ((seq.foldl histAdd h).map Prod.snd).sum
        = (h.map Prod.snd).sum + (seq.length : ℚ) ∧
      (h ≠ [] → seq.foldl histAdd h ≠ []) := by
  intro seq
  induction seq with
  | nil =>
    intro h hnd hpos
    refine ⟨?_, ?_, ?_, ?_, ?_⟩
    · simpa using hnd
    · simpa using hpos
    · simp
    · simp
    · intro hne
      simpa using hne
  | cons a t ih =>
    intro h hnd hpos
    simp only [List.foldl_cons]
    obtain ⟨h1, h2, h3, h4, h5⟩ := ih (histAdd h a) (histAdd_nodup hnd a) (histAdd_pos hpos a)
    refine ⟨h1, h2, ?_, ?_, ?_⟩
    · rw [h3, (histAdd_sums hnd a).1]
      simp only [List.sum_cons]
      ring
    · rw [h4, (histAdd_sums hnd a).2]
      simp only [List.length_cons]
      push_cast
      ring
    · intro _
      exact h5 (histAdd_ne_nil h a)

lemma histFromList_spec {seq : List ℚ} (hne : seq ≠ []) :
    ((histFromList seq).map Prod.fst).Nodup ∧
      (∀ vc ∈ histFromList seq, 0 < vc.2) ∧
      ((histFromList seq).map (fun vc => vc.1 * vc.2)).sum = seq.sum ∧
      ((histFromList seq).map Prod.snd).sum = (seq.length : ℚ) ∧
      histFromList seq ≠ [] := by
  cases seq with
  | nil => exact absurd rfl hne
  | cons a t =>
    rw [histFromList]
    obtain ⟨h1, h2, h3, h4, h5⟩ :=
      histFold_spec (a :: t) [] (by simp) (by simp)
    refine ⟨h1, h2, by simpa using h3, by simpa using h4, ?_⟩
    simp only [List.foldl_cons] at *
    obtain ⟨g1, g2, g3, g4, g5⟩ :=
      histFold_spec t (histAdd [] a) (histAdd_nodup (by simp) a) (histAdd_pos (by simp) a)
    exact g5 (histAdd_ne_nil [] a)

lemma meanGo_telescope : ∀ (cts xs : List ℚ) (acc t T : ℚ), T ≠ 0 →
    xs.length = cts.length →
    meanGo (acc / T) t (xs.zip ((runsums acc cts).map (fun c => c / T)))
      = t + ((xs.zip cts).map (fun vc => vc.1 * vc.2)).sum / T := by
  intro cts
  induction cts with
  | nil =>
    intro xs acc t T hT hlen
    have hxs : xs = [] := List.length_eq_zero.mp hlen
    subst hxs
    simp [runsums, meanGo]
  | cons ct cts' ih =>
    intro xs acc t T hT hlen
    cases xs with
    | nil => simp at hlen
    | cons x xs' =>
      simp only [runsums, List.map_cons, List.zip_cons_cons, meanGo, List.sum_cons]
      have hlen' : xs'.length = cts'.length := by simpa using hlen
      have hstep := ih xs' (acc + ct) (t + ((acc + ct) / T - acc / T) * x) T hT hlen'
      simp only [List.zip] at hstep ⊢
      rw [hstep]
      field_simp
      ring

lemma Mean_MakeCdf {items : List (ℚ × ℚ)} (hne : items ≠ [])
    (hpos : ∀ vc ∈ items, 0 < vc.2) {name : String} {c : Cdf}
    (hok : MakeCdf items name = .ok c) :
    c.Mean = (items.map (fun vc => vc.1 * vc.2)).sum / (items.map Prod.snd).sum := by
  have htot := totalPos hne hpos
  have heq := MakeCdf_eq hne hpos name
  rw [hok] at heq
  obtain rfl := Except.ok.inj heq
  rw [Cdf.Mean]
  show meanGo 0 0 (((pySorted items).map Prod.fst).zip
    ((runsums 0 ((pySorted items).map Prod.snd)).map
      (fun cc => cc / ((pySorted items).map Prod.snd).sum))) = _
  have h0 : (0 : ℚ) = 0 / ((pySorted items).map Prod.snd).sum := by rw [zero_div]
  nth_rewrite 1 [h0]
  rw [meanGo_telescope _ _ _ _ _ (ne_of_gt htot) (by simp)]
  rw [List.zip_map', zero_add]
  have hmm : ((pySorted items).map (fun a => (a.1, a.2))).map (fun vc => vc.1 * vc.2)
      = (pySorted items).map (fun vc => vc.1 * vc.2) := by
    rw [List.map_map]
    rfl
  rw [hmm]
  have hperm := pySorted_perm items
  rw [(hperm.map (fun vc => vc.1 * vc.2)).sum_eq, (hperm.map Prod.snd).sum_eq]

lemma renderGo_length : ∀ (ps xs : List ℚ) (i : ℕ) (rx rp : List ℚ),
    renderGo xs i ps = .ok (rx, rp) → rx.length = rp.length := by
  intro ps
  induction ps with
  | nil =>
    intro xs i rx rp h
    simp only [renderGo] at h
    obtain ⟨h1, h2⟩ := Prod.mk.injEq .. ▸ Except.ok.inj h
    rw [← h1, ← h2]
  | cons p rest ih =>
    intro xs i rx rp h
    simp only [renderGo] at h
    cases hxi : xs[i]? with
    | none =>
      rw [hxi] at h
      exact absurd h (by simp)
    | some xi =>
      rw [hxi] at h
      cases hrec : renderGo xs (i + 1) rest with
      | error e =>
        rw [hrec] at h
        exact absurd h (by simp)
      | ok pr =>
        obtain ⟨rx', rp'⟩ := pr
        rw [hrec] at h
        have hlen := ih xs (i + 1) rx' rp' hrec
        cases hxn : xs[i + 1]? with
        | none =>
          rw [hxn] at h
          obtain ⟨h1, h2⟩ := Prod.mk.injEq .. ▸ Except.ok.inj h
          rw [← h1, ← h2]
          simp [hlen]
        | some xn =>
          rw [hxn] at h
          obtain ⟨h1, h2⟩ := Prod.mk.injEq .. ▸ Except.ok.inj h
          rw [← h1, ← h2]
          simp [hlen]

lemma MakeCdf_basic {items : List (ℚ × ℚ)} (hne : items ≠ [])
    (hpos : ∀ vc ∈ items, 0 < vc.2) {name : String} {c : Cdf}
    (hok : MakeCdf items name = .ok c) :
    c.xs.Sorted (· ≤ ·) ∧ c.xs ≠ [] ∧ c.xs.length = c.ps.length ∧
      c.ps.getLast? = some 1 := by
  have htot := totalPos hne hpos
  have heq := MakeCdf_eq hne hpos name
  rw [hok] at heq
  obtain rfl := Except.ok.inj heq
  have hsnn : pySorted items ≠ [] := pySorted_ne_nil hne
  have hcnn : (pySorted items).map Prod.snd ≠ [] := by
    intro h
    exact hsnn (by simpa using h)
  refine ⟨pySorted_sorted_fst items, ?_, by simp [runsums_length], ?_⟩
  · intro h
    exact hsnn (by simpa using h)
  · rw [List.getLast?_map, runsums_getLast? _ hcnn 0]
    simp only [Option.map_some', zero_add]
    rw [div_self (ne_of_gt htot)]

lemma Value_mid_le {c : Cdf} (hlen : c.xs.length = c.ps.length) (hne : c.xs ≠ [])
    (hps : c.ps.Sorted (· ≤ ·)) (hlast : c.ps.getLast? = some 1)
    {p : ℚ} (h0 : 0 < p) (h1 : p < 1) :
    ∃ k, k < c.xs.length ∧ c.Value p = .ok (c.xs.getD k 0) ∧ p ≤ c.ps.getD k 0 := by
  have hxlen : 0 < c.xs.length := List.length_pos.mpr hne
  have hplen : 0 < c.ps.length := by omega
  have hpsne : c.ps ≠ [] := List.length_pos.mp hplen
  have hlastD : c.ps.getD (c.ps.length - 1) 0 = 1 := by
    have := getLast?_eq_getD hpsne
    rw [hlast] at this
    exact (Option.some.inj this).symm
  obtain ⟨hble, hA, hB⟩ := bisect_spec (a := c.ps) (x := p) hps
  have hidxlt : bisect c.ps p < c.ps.length := by
    rcases Nat.lt_or_ge (bisect c.ps p) (c.ps.length) with h | h
    · exact h
    · have := hA (c.ps.length - 1) (by omega) (by omega)
      rw [hlastD] at this
      exact absurd this (not_le.mpr h1)
  have hc1 : ¬(p < 0 ∨ 1 < p) := by
    push_neg
    exact ⟨le_of_lt h0, le_of_lt h1⟩
  have hc2 : ¬(p = 0) := ne_of_gt h0
  have hc3 : ¬(p = 1) := ne_of_lt h1
  rw [Cdf.Value, if_neg hc1, if_neg hc2, if_neg hc3]
  cases hidx : bisect c.ps p with
  | zero =>
    simp only [Nat.cast_zero]
    have hq : pyGet c.ps ((0 : ℤ) - 1) = .ok (c.ps.getD (c.ps.length - 1) 0) := by
      have hm1 : ((0 : ℤ) - 1) = (-1 : ℤ) := by omega
      rw [hm1, pyGet_neg_one hpsne]
    simp only [hq]
    have hqne : ¬(p = c.ps.getD (c.ps.length - 1) 0) := by
      rw [hlastD]
      exact hc3
    rw [if_neg hqne]
    exact ⟨0, hxlen, pyGet_zero hne, le_of_lt (hB 0 (by omega) hplen)⟩
  | succ m =>
    have hmlt : m < c.ps.length := by omega
    have hq : pyGet c.ps ((m + 1 : ℕ) - 1 : ℤ) = .ok (c.ps.getD m 0) := by
      have hc : ((m + 1 : ℕ) - 1 : ℤ) = ((m : ℕ) : ℤ) := by push_cast; ring
      rw [hc, pyGet_ofNat hmlt]
    simp only [hq]
    by_cases hpq : p = c.ps.getD m 0
    · rw [if_pos hpq]
      have hmx : m < c.xs.length := by omega
      have hgx : pyGet c.xs ((m + 1 : ℕ) - 1 : ℤ) = .ok (c.xs.getD m 0) := by
        have hc : ((m + 1 : ℕ) - 1 : ℤ) = ((m : ℕ) : ℤ) := by push_cast; ring
        rw [hc, pyGet_ofNat hmx]
      rw [hgx]
      exact ⟨m, hmx, rfl, le_of_eq hpq⟩
    · rw [if_neg hpq]
      have hm1x : m + 1 < c.xs.length := by omega
      rw [pyGet_ofNat hm1x]
      refine ⟨m + 1, hm1x, rfl, ?_⟩
      exact le_of_lt (hB (m + 1) (by omega) (by omega))

lemma countP_all_le {c : Cdf} (hxs : c.xs.Sorted (· ≤ ·)) (hne : c.xs ≠ [])
    {x : ℚ} (hx : c.xs.getD (c.xs.length - 1) 0 ≤ x) :
    c.xs.countP (fun v => decide (v ≤ x)) = c.xs.length := by
  rw [List.countP_eq_length]
  intro a ha
  obtain ⟨j, hj, rfl⟩ := List.mem_iff_getElem.mp ha
  have hjle : c.xs.getD j 0 ≤ c.xs.getD (c.xs.length - 1) 0 :=
    getD_le_of_sorted_le hxs (by omega) (by omega)
  rw [List.getD_eq_getElem c.xs 0 hj] at hjle
  exact decide_eq_true (le_trans hjle hx)

lemma getD_ne_of_nodup {l : List ℚ} (hnd : l.Nodup) {i j : ℕ} (hi : i < l.length)
    (hj : j < l.length) (hij : i ≠ j) : l.getD i 0 ≠ l.getD j 0 := by
  rw [List.getD_eq_getElem l 0 hi, List.getD_eq_getElem l 0 hj]
  intro he
  exact hij ((List.Nodup.getElem_inj_iff hnd).mp he)

lemma renderGo_count_last {xs : List ℚ} (hnd : xs.Nodup) :
    ∀ (qs : List ℚ) (i : ℕ), i + qs.length = xs.length →
      ∀ rx rp, renderGo xs i qs = .ok (rx, rp) →
        rx.count (xs.getD (xs.length - 1) 0) = min qs.length 2 := by
  intro qs
  induction qs with
  | nil =>
    intro i hi rx rp h
    simp only [renderGo] at h
    obtain ⟨h1, h2⟩ := Prod.mk.injEq .. ▸ Except.ok.inj h
    rw [← h1]
    simp
  | cons q qs' ih =>
    intro i hi rx rp h
    simp only [renderGo] at h
    cases hxi : xs[i]? with
    | none =>
      rw [hxi] at h
      exact absurd h (by simp)
    | some xi =>
      simp only [hxi] at h
      cases hrec : renderGo xs (i + 1) qs' with
      | error e =>
        rw [hrec] at h
        exact absurd h (by simp)
      | ok pr =>
        obtain ⟨rx'', rp''⟩ := pr
        simp only [hrec] at h
        obtain ⟨hilen, hxiv⟩ := List.getElem?_eq_some_iff.mp hxi
        have hxiD : xi = xs.getD i 0 := by
          rw [List.getD_eq_getElem xs 0 hilen]
          exact hxiv.symm
        have hcount'' := ih (i + 1) (by simp only [List.length_cons] at hi; omega)
          rx'' rp'' hrec
        cases hxn : xs[i + 1]? with
        | none =>
          simp only [hxn] at h
          obtain ⟨h1, h2⟩ := Prod.mk.injEq .. ▸ Except.ok.inj h
          have hge : xs.length ≤ i + 1 := by
            by_contra hlt
            push_neg at hlt
            rw [List.getElem?_eq_getElem hlt] at hxn
            simp at hxn
          have hq' : qs'.length = 0 := by
            simp only [List.length_cons] at hi
            omega
          have hieq : i = xs.length - 1 := by omega
          have hxiL : xi = xs.getD (xs.length - 1) 0 := by rw [hxiD, hieq]
          rw [← h1, hxiL, List.count_cons_self, hcount'', hq']
          simp [List.length_cons]
          omega
        | some xn =>
          simp only [hxn] at h
          obtain ⟨h1, h2⟩ := Prod.mk.injEq .. ▸ Except.ok.inj h
          obtain ⟨hi1len, hxnv⟩ := List.getElem?_eq_some_iff.mp hxn
          have hxnD : xn = xs.getD (i + 1) 0 := by
            rw [List.getD_eq_getElem xs 0 hi1len]
            exact hxnv.symm
          have hine : i ≠ xs.length - 1 := by omega
          have hxine : xs.getD (xs.length - 1) 0 ≠ xi := by
            rw [hxiD]
            exact getD_ne_of_nodup hnd (by omega) hilen (by omega)
          have hq'pos : 1 ≤ qs'.length := by
            simp only [List.length_cons] at hi
            omega
          rw [← h1, List.count_cons_of_ne hxine]
          rcases Nat.lt_or_ge qs'.length 2 with hq2 | hq2
          · have hq1 : qs'.length = 1 := by omega
            have hi1eq : i + 1 = xs.length - 1 := by
              simp only [List.length_cons] at hi
              omega
            have hxnL : xn = xs.getD (xs.length - 1) 0 := by rw [hxnD, hi1eq]
            rw [hxnL, List.count_cons_self, hcount'', hq1]
            simp only [List.length_cons]
            omega
          · have hi1ne : xs.getD (xs.length - 1) 0 ≠ xn := by
              rw [hxnD]
              refine getD_ne_of_nodup hnd (by omega) hi1len ?_
              simp only [List.length_cons] at hi
              omega
            rw [List.count_cons_of_ne hi1ne, hcount'']
            simp only [List.length_cons]
            omega


/-- Claim C1 (code bug in `ProbLess`): the specification says `ProbLess`
returns the Riemann-sum approximation of `P(sampleA < sampleB)` whenever both
CDFs have at least 2 ascending support points. In the code, the very first
loop statement reads `cdf1.data`, an attribute that `Cdf.__init__` never
sets, so on CDFs built by the module's own constructors `ProbLess` raises
`AttributeError` and never returns a float; the docstring's promised return
value is unreachable. This theorem evaluates the model at the failing input
`cdfA = cdfB = MakeCdf([(1,1),(2,1)])`, which has 2 support points. -/
theorem probLess_fails_on_constructed_cdfs :
    MakeCdf [((1 : ℚ), (1 : ℚ)), (2, 1)] "A" = .ok (Cdf.mk [1, 2] [1/2, 1] "A") ∧
      ProbLess (Cdf.mk [1, 2] [1/2, 1] "A") (Cdf.mk [1, 2] [1/2, 1] "A")
        = .error .attributeError := by
  constructor
  · with_unfolding_all decide
  · rfl

/-- Claim C10: `ProbLess` reads a `data` field from both arguments, but the
`Cdf` type constructed by this module defines only `xs`, `ps` and `name`;
hence `ProbLess` raises `AttributeError` on every pair of `Cdf` objects —
in particular on everything the module's constructors produce — regardless
of how many support points they have. -/
theorem probLess_attributeError_always (cdf1 cdf2 : Cdf) :
    ProbLess cdf1 cdf2 = .error .attributeError := rfl

/-- Claim C2, counterexample: `Render()` on the CDF with values `[1,2,3]`
and cumulative probabilities `[0.2,0.5,1.0]` does NOT return
`xs=[1,1,2,2,3]`, `ps=[0.0,0.2,0.2,0.5,0.5]` as claimed: the loop also
emits the final point `(3, 1.0)`, so the last support point appears twice
and the claimed five-element output is wrong. -/
theorem render_example_counterexample :
    (Cdf.mk [1, 2, 3] [1/5, 1/2, 1] "").Render
      ≠ .ok ([1, 1, 2, 2, 3], [0, 1/5, 1/5, 1/2, 1/2]) := by
  with_unfolding_all decide

/-- Claim C2, amended: `Render()` on values `[1,2,3]` with cumulative
probabilities `[0.2,0.5,1.0]` returns `xs=[1,1,2,2,3,3]` and
`ps=[0.0,0.2,0.2,0.5,0.5,1.0]`; and in general, whenever `Render` returns,
the two returned sequences have equal length, and — when the support
values are duplicate-free and match the probabilities in length, as the
builder guarantees — the last support point appears exactly twice in the
output (once closing the final horizontal segment, once at the final
jump). -/
theorem render_example_amended :
    (Cdf.mk [1, 2, 3] [1/5, 1/2, 1] "").Render
      = .ok ([1, 1, 2, 2, 3, 3], [0, 1/5, 1/5, 1/2, 1/2, 1]) ∧
    ∀ (c : Cdf) (rx rp : List ℚ), c.Render = .ok (rx, rp) →
      rx.length = rp.length ∧
      (c.xs.Nodup → c.xs.length = c.ps.length →
        rx.count (c.xs.getD (c.xs.length - 1) 0) = 2) := by
  constructor
  · with_unfolding_all decide
  · intro c rx rp h
    simp only [Cdf.Render] at h
    cases h0 : pyGet c.xs 0 with
    | error e =>
      rw [h0] at h
      exact absurd h (by simp)
    | ok x0 =>
      simp only [h0] at h
      cases hr : renderGo c.xs 0 c.ps with
      | error e =>
        rw [hr] at h
        exact absurd h (by simp)
      | ok pr =>
        obtain ⟨rx', rp'⟩ := pr
        simp only [hr] at h
        obtain ⟨h1, h2⟩ := Prod.mk.injEq .. ▸ Except.ok.inj h
        constructor
        · rw [← h1, ← h2]
          simp [renderGo_length c.ps c.xs 0 rx' rp' hr]
        · intro hnd hlen
          have hxlen : 0 < c.xs.length := by
            by_contra hz
            push_neg at hz
            have hxe : c.xs = [] := by
              cases hx : c.xs with
              | nil => rfl
              | cons a t => rw [hx] at hz; simp at hz
            rw [hxe] at h0
            simp [pyGet] at h0
          have hcnt := renderGo_count_last hnd c.ps 0 (by omega) rx' rp' hr
          have hx0 : x0 = c.xs.getD 0 0 := by
            have hpz := pyGet_zero (l := c.xs) (List.length_pos.mp hxlen)
            rw [h0] at hpz
            exact Except.ok.inj hpz
          rw [← h1]
          rcases Nat.lt_or_ge 1 c.xs.length with hn2 | hn1
          · have hne0 : c.xs.getD (c.xs.length - 1) 0 ≠ x0 := by
              rw [hx0]
              exact getD_ne_of_nodup hnd (by omega) (by omega) (by omega)
            rw [List.count_cons_of_ne hne0, hcnt]
            omega
          · have hn1' : c.xs.length = 1 := by omega
            have hx0L : x0 = c.xs.getD (c.xs.length - 1) 0 := by
              rw [hx0, hn1']
            rw [hx0L, List.count_cons_self, hcnt]
            omega

/-- Witness for the amended claim C2: on the one-point CDF `[5]` with
probabilities `[1]`, the output sequences have equal length and the last
support point `5` appears exactly twice. -/
theorem render_length_witness :
    ([5, 5] : List ℚ).length = ([0, 1] : List ℚ).length ∧
      ([5, 5] : List ℚ).count 5 = 2 := by
  have h := render_example_amended.2 (Cdf.mk [5] [1] "") [5, 5] [0, 1]
    (by with_unfolding_all decide)
  refine ⟨h.1, ?_⟩
  have h2 := h.2 (by simp) (by simp)
  simpa using h2

/-- Claim C3, counterexample: building a CDF from the empty pair sequence
does NOT fail. `MakeCdf([])` returns a `Cdf` object with empty `xs` and
`ps`: the running-sum list is empty, so the probability comprehension
performs no division and no `ZeroDivisionError` is raised. -/
theorem makeCdf_empty_returns :
    MakeCdf ([] : List (ℚ × ℚ)) "" = .ok (Cdf.mk [] [] "") := by
  with_unfolding_all rfl

/-- Claim C3, amended: building a CDF from an empty pair sequence does not
raise; it returns a degenerate CDF whose values and probabilities are both
empty, for any name. -/
theorem makeCdf_empty_amended (name : String) :
    MakeCdf ([] : List (ℚ × ℚ)) name = .ok (Cdf.mk [] [] name) := by
  with_unfolding_all rfl

/-- Claim C9: `MakeCdf` applied to an empty pair sequence returns a `Cdf`
whose values and cumulative-probability sequences are both empty, without
raising any error: the list of running sums is empty, so the probability
list comprehension performs no division by the zero total. -/
theorem makeCdf_empty_no_error (name : String) :
    ∃ c : Cdf, MakeCdf ([] : List (ℚ × ℚ)) name = .ok c ∧ c.xs = [] ∧ c.ps = [] := by
  refine ⟨Cdf.mk [] [] name, ?_, rfl, rfl⟩
  with_unfolding_all rfl

/-- Claim C4, counterexample: under the invariants as the claim states them
(values strictly ascending, cumulative probabilities merely NON-DECREASING
with final entry `1.0`, equal lengths), `Value(p)` need not return the
smallest support value whose CDF is at least `p`. On the CDF with values
`[1,2,3]` and probabilities `[1/2,1/2,1]`, `Value(1/2)` returns `2`, yet
the smaller support value `1` already satisfies `Prob(1) = 1/2 ≥ 1/2`.
The claim, instantiated as a universally quantified statement, is refuted. -/
theorem value_smallest_counterexample :
    ¬ (∀ c : Cdf, c.xs.Sorted (· < ·) → c.ps.Sorted (· ≤ ·) →
        c.ps.getLast? = some 1 → c.xs.length = c.ps.length →
        ∀ p v, 0 < p → p < 1 → c.Value p = .ok v →
          ∀ w ∈ c.xs, (∃ q, c.Prob w = .ok q ∧ p ≤ q) → v ≤ w) := by
  intro hclaim
  have h := hclaim (Cdf.mk [1, 2, 3] [1/2, 1/2, 1] "")
    (by with_unfolding_all decide) (by with_unfolding_all decide)
    (by with_unfolding_all decide) (by with_unfolding_all decide)
    (1/2) 2 (by norm_num) (by norm_num) (by with_unfolding_all decide)
    1 (by with_unfolding_all decide)
    ⟨1/2, by with_unfolding_all decide, by norm_num⟩
  norm_num at h

/-- Claim C4, amended: the smallest-value clause requires the cumulative
probabilities to be STRICTLY increasing (which the builder produces for
positive counts); the other clauses hold as stated. For every CDF with
values strictly ascending, probabilities strictly increasing with final
entry `1.0` and equal lengths: `Value(p)` fails with `ValueError` when `p`
is outside `[0,1]` and succeeds inside; `Value(0)` is the first value;
`Value(1)` is the last value; and for `0 < p < 1`, `Value(p)` is the
smallest support value `x` with `Prob(x) ≥ p`. -/
theorem value_spec_amended (c : Cdf)
    (hxs : c.xs.Sorted (· < ·)) (hps : c.ps.Sorted (· < ·))
    (hlast : c.ps.getLast? = some 1) (hlen : c.xs.length = c.ps.length) (p : ℚ) :
    ((p < 0 ∨ 1 < p) → c.Value p = .error .valueError) ∧
    (0 ≤ p → p ≤ 1 → ∃ v, c.Value p = .ok v) ∧
    c.Value 0 = .ok (c.xs.getD 0 0) ∧
    c.Value 1 = .ok (c.xs.getD (c.xs.length - 1) 0) ∧
    (0 < p → p < 1 → ∃ v, c.Value p = .ok v ∧ v ∈ c.xs ∧
      (∃ q, c.Prob v = .ok q ∧ p ≤ q) ∧
      ∀ w ∈ c.xs, w < v → ∃ q, c.Prob w = .ok q ∧ q < p) := by
  have hpsne : c.ps ≠ [] := by
    intro h
    rw [h] at hlast
    simp at hlast
  have hplen : 0 < c.ps.length := List.length_pos.mpr hpsne
  have hxlen : 0 < c.xs.length := by omega
  have hxne : c.xs ≠ [] := List.length_pos.mp hxlen
  have hmid : 0 < p → p < 1 → ∃ v, c.Value p = .ok v ∧ v ∈ c.xs ∧
      (∃ q, c.Prob v = .ok q ∧ p ≤ q) ∧
      ∀ w ∈ c.xs, w < v → ∃ q, c.Prob w = .ok q ∧ q < p := by
    intro hp0 hp1
    obtain ⟨k, hk, hv, hpk, hjk⟩ := Value_mid hlen hxne hps hlast hp0 hp1
    refine ⟨c.xs.getD k 0, hv, ?_,
      ⟨c.ps.getD k 0, Prob_at_support hxs hlen hk, hpk⟩, ?_⟩
    · rw [List.getD_eq_getElem c.xs 0 hk]
      exact List.getElem_mem hk
    · intro w hw hwv
      obtain ⟨j, hj, rfl⟩ := List.mem_iff_getElem.mp hw
      have hjD : c.xs[j] = c.xs.getD j 0 := (List.getD_eq_getElem c.xs 0 hj).symm
      have hjk' : j < k := by
        by_contra hge
        push_neg at hge
        have hle : c.xs.getD k 0 ≤ c.xs.getD j 0 :=
          getD_le_of_sorted_le (hxs.imp le_of_lt) hge hj
        rw [← hjD] at hle
        exact absurd hwv (not_lt.mpr hle)
      refine ⟨c.ps.getD j 0, ?_, hjk j hjk'⟩
      rw [hjD]
      exact Prob_at_support hxs hlen hj
  refine ⟨fun h => Value_out_of_range h, ?_, Value_zero hxne, Value_one hxne, hmid⟩
  intro hge hle
  rcases eq_or_lt_of_le hge with h | h
  · rw [← h]
    exact ⟨_, Value_zero hxne⟩
  · rcases eq_or_lt_of_le hle with h' | h'
    · subst h'
      exact ⟨_, Value_one hxne⟩
    · obtain ⟨v, hv, _⟩ := hmid h h'
      exact ⟨v, hv⟩

/-- Witness for the amended claim C4: on the two-point CDF `[1,2]` with
probabilities `[1/2,1]`, `Value(0)` returns the first support value `1`. -/
theorem value_spec_witness :
    (Cdf.mk [1, 2] [1/2, 1] "").Value 0 = .ok 1 := by
  have h := (value_spec_amended (Cdf.mk [1, 2] [1/2, 1] "")
    (by with_unfolding_all decide) (by with_unfolding_all decide)
    (by with_unfolding_all decide) (by with_unfolding_all decide) (1/2)).2.2.1
  simpa using h

/-- Claim C5: for every non-empty input to any builder path (pairs via
`MakeCdf`, mapping via `MakeCdfFromDict`, raw samples via
`MakeCdfFromList`) with distinct values and positive counts, the
constructed CDF has strictly ascending values, non-decreasing cumulative
probabilities all in `[0,1]`, equal lengths, and final cumulative
probability `1`. (Positivity of the counts is assumed as rationals, which
subsumes the claim's positive integers; the samples path needs no extra
hypotheses because its histogram always has distinct keys and positive
integer counts.) -/
theorem builder_invariants_all_paths :
    (∀ (items : List (ℚ × ℚ)) (name : String) (c : Cdf),
      items ≠ [] → (∀ vc ∈ items, 0 < vc.2) → (items.map Prod.fst).Nodup →
      MakeCdf items name = .ok c → builderInv c) ∧
    (∀ (d : List (ℚ × ℚ)) (name : String) (c : Cdf),
      d ≠ [] → (∀ vc ∈ d, 0 < vc.2) → (d.map Prod.fst).Nodup →
      MakeCdfFromDict d name = .ok c → builderInv c) ∧
    (∀ (seq : List ℚ) (name : String) (c : Cdf),
      seq ≠ [] → MakeCdfFromList seq name = .ok c → builderInv c) := by
  refine ⟨?_, ?_, ?_⟩
  · intro items name c hne hpos hnd hok
    exact (MakeCdf_inv hne hpos hnd hok).1
  · intro d name c hne hpos hnd hok
    have hok' : MakeCdf d name = .ok c := hok
    exact (MakeCdf_inv hne hpos hnd hok').1
  · intro seq name c hne hok
    obtain ⟨h1, h2, _, _, h5⟩ := histFromList_spec hne
    have hok' : MakeCdf (histFromList seq) name = .ok c := hok
    exact (MakeCdf_inv h5 h2 h1 hok').1

/-- Witness for claim C5: the invariants hold for the CDF built from the
pairs `[(1,1),(2,1)]`. -/
theorem builder_invariants_witness : builderInv (Cdf.mk [1, 2] [1/2, 1] "w") :=
  builder_invariants_all_paths.1 [(1, 1), (2, 1)] "w" (Cdf.mk [1, 2] [1/2, 1] "w")
    (by simp) (by with_unfolding_all decide) (by with_unfolding_all decide)
    (by with_unfolding_all decide)

/-- Claim C6: for every non-empty sequence of samples, `Mean()` of the CDF
built from those samples equals the arithmetic mean of the raw samples,
exactly, in rational arithmetic. -/
theorem mean_eq_sample_mean (seq : List ℚ) (name : String) (hne : seq ≠ []) :
    ∃ c : Cdf, MakeCdfFromList seq name = .ok c ∧
      c.Mean = seq.sum / (seq.length : ℚ) := by
  obtain ⟨hnd, hpos, hsum, hcount, hhne⟩ := histFromList_spec hne
  have hok := MakeCdf_eq hhne hpos name
  refine ⟨_, hok, ?_⟩
  rw [Mean_MakeCdf hhne hpos hok, hsum, hcount]

/-- Witness for claim C6: the samples `[1,2,2,3,3,3]` give a CDF whose mean
is their arithmetic mean `14/6 = 7/3`. -/
theorem mean_eq_sample_mean_witness :
    ∃ c : Cdf, MakeCdfFromList [1, 2, 2, 3, 3, 3] "x" = .ok c ∧
      c.Mean = ([1, 2, 2, 3, 3, 3] : List ℚ).sum
        / (([1, 2, 2, 3, 3, 3] : List ℚ).length : ℚ) :=
  mean_eq_sample_mean [1, 2, 2, 3, 3, 3] "x" (by simp)

/-- Claim C7: for every CDF built by `MakeCdf` from non-empty input with
positive counts and every query point `x`: `Prob(x)` is `0` when `x` is
strictly below the least support value; `1` when `x` is at or above the
greatest support value; and in the remaining (and overlapping) case
`x ≥ min`, it is the cumulative probability at one less than the rightmost
insertion point of `x` among the values — the number of support values
`≤ x` — so `Prob` at a support point includes that point's mass. -/
theorem prob_spec_on_built_cdf (items : List (ℚ × ℚ)) (name : String) (c : Cdf)
    (hne : items ≠ []) (hpos : ∀ vc ∈ items, 0 < vc.2)
    (hok : MakeCdf items name = .ok c) (x : ℚ) :
    (x < c.xs.getD 0 0 → c.Prob x = .ok 0) ∧
    (c.xs.getD (c.xs.length - 1) 0 ≤ x → c.Prob x = .ok 1) ∧
    (c.xs.getD 0 0 ≤ x →
      c.Prob x = .ok (c.ps.getD (c.xs.countP (fun v => decide (v ≤ x)) - 1) 0)) := by
  obtain ⟨hsort, hxne, hlen, hlast⟩ := MakeCdf_basic hne hpos hok
  have hxlen : 0 < c.xs.length := List.length_pos.mpr hxne
  have hplen : 0 < c.ps.length := by omega
  have hpsne : c.ps ≠ [] := List.length_pos.mp hplen
  have hlastD : c.ps.getD (c.ps.length - 1) 0 = 1 := by
    have := getLast?_eq_getD hpsne
    rw [hlast] at this
    exact (Option.some.inj this).symm
  refine ⟨fun hx => Prob_lt_head hxne hx, ?_, ?_⟩
  · intro hx
    have hx0 : c.xs.getD 0 0 ≤ x :=
      le_trans (getD_le_of_sorted_le hsort (Nat.zero_le _) (by omega)) hx
    obtain ⟨hp, _, _⟩ := Prob_eval hsort hxne hlen hx0
    rw [hp, bisect_eq_countP hsort, countP_all_le hsort hxne hx, hlen, hlastD]
  · intro hx0
    obtain ⟨hp, _, _⟩ := Prob_eval hsort hxne hlen hx0
    rw [hp, bisect_eq_countP hsort]

/-- Witness for claim C7: on the CDF built from `[(1,1),(2,1)]` the
mid-range clause gives `Prob(3/2) = 1/2`. -/
theorem prob_spec_witness :
    (Cdf.mk [1, 2] [1/2, 1] "").Prob (3/2) = .ok (1/2) := by
  have h := (prob_spec_on_built_cdf [(1, 1), (2, 1)] "" (Cdf.mk [1, 2] [1/2, 1] "")
    (by simp) (by with_unfolding_all decide) (by with_unfolding_all decide)
    (3/2)).2.2 (by with_unfolding_all decide)
  rw [h]
  with_unfolding_all decide

/-- Claim C8: for every CDF satisfying the builder invariants (values
strictly ascending, cumulative probabilities non-decreasing and in `[0,1]`
with final entry `1`, equal lengths) and every `p ∈ [0,1]`, the round trip
`Prob(Value(p))` succeeds and returns a probability `≥ p`. -/
theorem prob_value_roundtrip (c : Cdf)
    (hxs : c.xs.Sorted (· < ·)) (hps : c.ps.Sorted (· ≤ ·))
    (hbounds : ∀ y ∈ c.ps, 0 ≤ y ∧ y ≤ 1)
    (hlen : c.xs.length = c.ps.length) (hlast : c.ps.getLast? = some 1)
    (p : ℚ) (h0 : 0 ≤ p) (h1 : p ≤ 1) :
    ∃ v q, c.Value p = .ok v ∧ c.Prob v = .ok q ∧ p ≤ q := by
  have hpsne : c.ps ≠ [] := by
    intro h
    rw [h] at hlast
    simp at hlast
  have hplen : 0 < c.ps.length := List.length_pos.mpr hpsne
  have hxlen : 0 < c.xs.length := by omega
  have hxne : c.xs ≠ [] := List.length_pos.mp hxlen
  rcases eq_or_lt_of_le h0 with hp0 | hp0
  · refine ⟨c.xs.getD 0 0, c.ps.getD 0 0, ?_, Prob_at_support hxs hlen hxlen, ?_⟩
    · rw [← hp0]
      exact Value_zero hxne
    · rw [← hp0]
      have hm : c.ps.getD 0 0 ∈ c.ps := by
        rw [List.getD_eq_getElem c.ps 0 hplen]
        exact List.getElem_mem hplen
      exact (hbounds _ hm).1
  · rcases eq_or_lt_of_le h1 with hp1 | hp1
    · subst hp1
      refine ⟨c.xs.getD (c.xs.length - 1) 0, c.ps.getD (c.xs.length - 1) 0,
        Value_one hxne, Prob_at_support hxs hlen (by omega), ?_⟩
      have hlastD : c.ps.getD (c.ps.length - 1) 0 = 1 := by
        have := getLast?_eq_getD hpsne
        rw [hlast] at this
        exact (Option.some.inj this).symm
      rw [hlen, hlastD]
    · obtain ⟨k, hk, hv, hpk⟩ := Value_mid_le hlen hxne hps hlast hp0 hp1
      exact ⟨c.xs.getD k 0, c.ps.getD k 0, hv, Prob_at_support hxs hlen hk, hpk⟩

/-- Witness for claim C8: on the CDF `[1,2]` with probabilities `[1/2,1]`
and `p = 3/4`, the round trip succeeds with `Prob(Value(3/4)) ≥ 3/4`. -/
theorem prob_value_roundtrip_witness :
    ∃ v q, (Cdf.mk [1, 2] [1/2, 1] "").Value (3/4) = .ok v ∧
      (Cdf.mk [1, 2] [1/2, 1] "").Prob v = .ok q ∧ (3/4 : ℚ) ≤ q :=
  prob_value_roundtrip (Cdf.mk [1, 2] [1/2, 1] "")
    (by with_unfolding_all decide) (by with_unfolding_all decide)
    (by with_unfolding_all decide) (by with_unfolding_all decide)
    (by with_unfolding_all decide) (3/4) (by norm_num) (by norm_num)
